import Mathlib

/-!
Shallow embedding of ranch (src/main.rs), a symlink-farm deployment tool
inspired by GNU stow.

A filesystem path is modelled as a list of components; an absolute path
begins with the root component "/". The filesystem is a finite record of
paths and entry types. `exec` models the `exec` function of main.rs
operating on such a filesystem: it takes the already-parsed command-line
arguments (argument parsing itself is an external collaborator) and the
initial filesystem, and returns the final filesystem, the stream of
structured events the run reports (printing of these events to stderr is
gated by the verbosity level and excluded here, per the layering of the
design), and how the process ended.

The deployment loop walks the source tree lazily in the Rust code; here the
walk is taken as a snapshot of the recorded entries under the package path,
in recorded order, which matches the code whenever the target tree does not
overlap the source tree being walked.
-/

namespace Ranch

/-- A filesystem path as a list of components. -/
abbrev Path := List String

/-- An absolute path begins with the root component "/". -/
def Path.isAbs (p : Path) : Bool := p.headD "" == "/"

/-- Models Rust Path::parent: none for the empty path and for the
filesystem root. -/
def Path.parentDir (p : Path) : Option Path :=
  if p = [] ∨ p = ["/"] then none else some p.dropLast

/-- Componentwise path-prefix test, as used by Path::strip_prefix. -/
def isPre : Path → Path → Bool
  | [], _ => true
  | _ :: _, [] => false
  | a :: as, b :: bs => a == b && isPre as bs

/-- Models Path::strip_prefix: the remainder of the path when the first
argument is a componentwise prefix of it, an error otherwise. -/
def dropPre (pre p : Path) : Option Path :=
  if isPre pre p then some (p.drop pre.length) else none

/-- The type of a filesystem entry. Regular files carry their byte
content, symlinks carry their stored link target. -/
inductive FType where
  | file (content : String)
  | dir
  | symlink (target : Path)
deriving DecidableEq

/-- A filesystem: a finite record of paths and entry types. Lookups take
the first matching record; all mutations of the program append fresh
paths, so order is otherwise immaterial. -/
structure FS where
  entries : List (Path × FType)
deriving DecidableEq

/-- First-match lookup over a record list. -/
def statList : List (Path × FType) → Path → Option FType
  | [], _ => none
  | (q, e) :: rest, p => if q = p then some e else statList rest p

/-- Models a (non-following) stat of a path. -/
def FS.stat (fs : FS) (p : Path) : Option FType := statList fs.entries p

/-- Record a new entry (used only at paths not currently present). -/
def FS.add (fs : FS) (p : Path) (e : FType) : FS := ⟨fs.entries ++ [(p, e)]⟩

/-- The path is a traversable directory: the filesystem root, or a
recorded directory. The empty path stands for the process root and is
also treated as existing. -/
def FS.isDirAt (fs : FS) (p : Path) : Bool :=
  p == [] || p == ["/"] || fs.stat p == some FType.dir

/-- Worker for create_dir_all: walk the components of the requested path,
creating each missing ancestor as a directory; fail if a component exists
as a non-directory. -/
def mkDirList (fs : FS) (done : Path) : List String → Option FS
  | [] => some fs
  | c :: cs =>
    let cur := done ++ [c]
    if fs.isDirAt cur then mkDirList fs cur cs
    else
      match fs.stat cur with
      | some _ => none
      | none => mkDirList (fs.add cur FType.dir) cur cs

/-- Models std::fs::create_dir_all. -/
def FS.mkDirAll (fs : FS) (p : Path) : Option FS := mkDirList fs [] p

/-- Models soft_link (std::os::unix::fs::symlink / symlink_file): fails
when the destination is already occupied (EEXIST) or its parent directory
is missing (ENOENT); otherwise records a symlink at the destination
pointing at the given source path. -/
def FS.softLink (fs : FS) (src dst : Path) : Option FS :=
  if (fs.stat dst).isSome then none
  else
    match Path.parentDir dst with
    | none => none
    | some par => if fs.isDirAt par then some (fs.add dst (FType.symlink src)) else none

/-- The walked entry passes the deployable filter
src.is_file() || src.is_symlink(): is_file follows links, but every
symlink already passes is_symlink, so the filter holds exactly when the
recorded entry is a regular file or a symlink. -/
def FS.isDeployable (fs : FS) (p : Path) : Bool :=
  match fs.stat p with
  | some (FType.file _) => true
  | some (FType.symlink _) => true
  | _ => false

/-- Models the WalkDir traversal rooted at p: every recorded path having
p as componentwise prefix (p itself included), in recorded order. -/
def FS.walk (fs : FS) (p : Path) : List Path :=
  (fs.entries.filter fun q => isPre p q.1).map Prod.fst

/-- The conflict-resolution policy of the -e / --exists option
(main.rs ConflictResolution). -/
inductive ConflictResolution where
  | stop
  | ignore
  | overwrite
  | adopt
  | rollback
deriving DecidableEq

/-- The parsed command-line arguments handed to exec (main.rs Args). dir
is already resolved by parse_dir; package names a subdirectory of dir. -/
structure Args where
  dryRun : Bool
  dir : Path
  target : Option Path
  verbose : Nat
  delete : String
  existsPolicy : ConflictResolution
  package : String
deriving DecidableEq

/-- A structured event reported by a run. warned is the
"src is not a child of dir; ignoring" report, planned is the
"src -> output" report for a link about to be made (or simulated). -/
inductive Event where
  | warned (src : Path)
  | planned (src dst : Path)
deriving DecidableEq

/-- How the process ended: normally, via exit(1) for a missing package,
or via a panic from an expect/unwrap. -/
inductive RunStatus where
  | ok
  | exited
  | fatal
deriving DecidableEq

/-- The observable outcome of a run. -/
structure Outcome where
  fs : FS
  events : List Event
  status : RunStatus
deriving DecidableEq

/-- The resolved target directory: --target when given, otherwise the
parent of dir (main.rs lines 135-141). -/
def resolveTarget (a : Args) : Option Path :=
  match a.target with
  | some t => some t
  | none => Path.parentDir a.dir

/-- The per-entry deployment loop of exec (main.rs lines 166-204):
skip entries that are neither files nor symlinks; warn and skip entries
that do not strip against dir; panic if the package segment fails to
strip (the .unwrap() on line 191); report the planned link; unless in
dry-run mode, create the link, panicking if creation fails (the .unwrap()
on line 202). -/
def deployLoop (a : Args) (tgt : Path) : List Path → FS → List Event → Outcome
  | [], fs, evs => ⟨fs, evs, RunStatus.ok⟩
  | src :: rest, fs, evs =>
    if fs.isDeployable src then
      match dropPre a.dir src with
      | none => deployLoop a tgt rest fs (evs ++ [Event.warned src])
      | some rel =>
        match dropPre [a.package] rel with
        | none => ⟨fs, evs, RunStatus.fatal⟩
        | some relOut =>
          let dst := tgt ++ relOut
          let evs2 := evs ++ [Event.planned src dst]
          if a.dryRun then deployLoop a tgt rest fs evs2
          else
            match fs.softLink src dst with
            | some fs2 => deployLoop a tgt rest fs2 evs2
            | none => ⟨fs, evs2, RunStatus.fatal⟩
    else deployLoop a tgt rest fs evs

/-- Models exec (main.rs lines 129-205): resolve the target (panicking
when dir has no parent), check the package path exists (exit(1)
otherwise), create the target directory (panicking on failure; this
happens in dry-run mode too), then run the deployment loop over the walk
of the package path. The delete and existsPolicy arguments are parsed but
never consulted by the code. -/
def exec (a : Args) (fs : FS) : Outcome :=
  match resolveTarget a with
  | none => ⟨fs, [], RunStatus.fatal⟩
  | some tgt =>
    let pkgPath := a.dir ++ [a.package]
    if (fs.stat pkgPath).isNone then ⟨fs, [], RunStatus.exited⟩
    else
      match fs.mkDirAll tgt with
      | none => ⟨fs, [], RunStatus.fatal⟩
      | some fs1 => deployLoop a tgt (fs1.walk pkgPath) fs1 []

/-- The entries strictly under a directory path: name and type of every
recorded entry having p as a proper componentwise prefix. -/
def FS.under (fs : FS) (p : Path) : List (Path × FType) :=
  fs.entries.filter fun q => isPre p q.1 && !(q.1 == p)

/-- A destination occupied by a regular file or a symlink, as opposed to
a directory. -/
def FType.isFileOrLink : FType → Bool
  | FType.dir => false
  | _ => true

/-! ### Concrete run fixtures

Small concrete packages and targets used to evaluate the embedded program
on explicit inputs: a package root r containing package home with a
single file .vimrc, in several target states. -/

/-- A dry run of package home rooted at r, with the default target
(the parent of r). -/
def argsDry : Args :=
  ⟨true, ["r"], none, 0, "", ConflictResolution.stop, "home"⟩

/-- A real run of package home rooted at r into target t, policy Stop. -/
def argsStop : Args :=
  ⟨false, ["r"], some ["t"], 0, "", ConflictResolution.stop, "home"⟩

/-- The same run under policy Overwrite. -/
def argsOver : Args :=
  ⟨false, ["r"], some ["t"], 0, "", ConflictResolution.overwrite, "home"⟩

/-- The same run under policy Rollback. -/
def argsRoll : Args :=
  ⟨false, ["r"], some ["t"], 0, "", ConflictResolution.rollback, "home"⟩

/-- The same run with delete = "home" requesting removal of the package. -/
def argsDel : Args :=
  ⟨false, ["r"], some ["t"], 0, "home", ConflictResolution.stop, "home"⟩

/-- A run whose package root is the relative path pkgs. -/
def argsRel : Args :=
  ⟨false, ["pkgs"], some ["t"], 0, "", ConflictResolution.stop, "home"⟩

/-- A run whose package root and target are absolute paths. -/
def argsAbs : Args :=
  ⟨false, ["/", "r"], some ["/", "t"], 0, "", ConflictResolution.stop, "home"⟩

/-- Package r/home holding one file, no target directory yet. -/
def fsHome : FS :=
  ⟨[(["r"], FType.dir), (["r", "home"], FType.dir),
    (["r", "home", ".vimrc"], FType.file "vim")]⟩

/-- Package r/home holding one file, empty target directory t. -/
def fsTgt : FS :=
  ⟨[(["r"], FType.dir), (["r", "home"], FType.dir),
    (["r", "home", ".vimrc"], FType.file "vim"), (["t"], FType.dir)]⟩

/-- Package r/home holding one file; the destination t/.vimrc is already
occupied by a regular file. -/
def fsConflict : FS :=
  ⟨[(["r"], FType.dir), (["r", "home"], FType.dir),
    (["r", "home", ".vimrc"], FType.file "vim"), (["t"], FType.dir),
    (["t", ".vimrc"], FType.file "old")]⟩

/-- Package r/home holding files a and b; only destination t/b is already
occupied, so a deploys before the conflict at b is hit. -/
def fsRoll : FS :=
  ⟨[(["r"], FType.dir), (["r", "home"], FType.dir),
    (["r", "home", "a"], FType.file "av"), (["r", "home", "b"], FType.file "bv"),
    (["t"], FType.dir), (["t", "b"], FType.file "old")]⟩

/-- Package r/home holding one file; the destination t/.vimrc is already
a deployed symlink of this very package. -/
def fsDel : FS :=
  ⟨[(["r"], FType.dir), (["r", "home"], FType.dir),
    (["r", "home", ".vimrc"], FType.file "vim"), (["t"], FType.dir),
    (["t", ".vimrc"], FType.symlink ["r", "home", ".vimrc"])]⟩

/-- Package r/home with a nested subdirectory cfg holding a file; the
target t exists but t/cfg does not. -/
def fsNest : FS :=
  ⟨[(["r"], FType.dir), (["r", "home"], FType.dir),
    (["r", "home", "cfg"], FType.dir),
    (["r", "home", "cfg", "app.conf"], FType.file "c"), (["t"], FType.dir)]⟩

/-- Package pkgs/home addressed through a relative root, empty target t. -/
def fsRel : FS :=
  ⟨[(["pkgs"], FType.dir), (["pkgs", "home"], FType.dir),
    (["pkgs", "home", ".vimrc"], FType.file "v"), (["t"], FType.dir)]⟩

/-- Package /r/home addressed through an absolute root, empty target /t. -/
def fsAbs : FS :=
  ⟨[(["/", "r"], FType.dir), (["/", "r", "home"], FType.dir),
    (["/", "r", "home", ".vimrc"], FType.file "v"), (["/", "t"], FType.dir)]⟩

/-- A loose deployable file outside the package root r, feeding the
defensive strip check of the loop. -/
def fsLoose : FS := ⟨[(["x"], FType.file "loose")]⟩

/-! ### Path lemmas -/

theorem isPre_iff (a b : Path) : isPre a b = true ↔ ∃ c, b = a ++ c := by
  induction a generalizing b with
  | nil => simp [isPre]
  | cons x xs ih =>
    cases b with
    | nil => simp [isPre]
    | cons y ys =>
      simp only [isPre, Bool.and_eq_true, beq_iff_eq, ih, List.cons_append,
        List.cons.injEq]
      constructor
      · rintro ⟨rfl, c, rfl⟩
        exact ⟨c, rfl, rfl⟩
      · rintro ⟨c, rfl, rfl⟩
        exact ⟨rfl, c, rfl⟩

theorem isPre_append (a c : Path) : isPre a (a ++ c) = true :=
  (isPre_iff a (a ++ c)).2 ⟨c, rfl⟩

theorem isPre_length {a b : Path} (h : isPre a b = true) :
    a.length ≤ b.length := by
  obtain ⟨c, rfl⟩ := (isPre_iff a b).1 h
  simp

theorem isPre_antisymm {a b : Path} (h1 : isPre a b = true)
    (h2 : isPre b a = true) : a = b := by
  obtain ⟨c, rfl⟩ := (isPre_iff a b).1 h1
  have hlen := isPre_length h2
  simp only [List.length_append] at hlen
  have : c = [] := List.eq_nil_of_length_eq_zero (by omega)
  simp [this]

theorem dropPre_eq {pre p rel : Path} (h : dropPre pre p = some rel) :
    p = pre ++ rel := by
  unfold dropPre at h
  by_cases hp : isPre pre p = true
  · obtain ⟨c, rfl⟩ := (isPre_iff pre p).1 hp
    simp [hp, List.drop_left] at h
    simp [h]
  · simp [hp] at h

theorem dropPre_append (pre c : Path) : dropPre pre (pre ++ c) = some c := by
  simp [dropPre, isPre_append, List.drop_left]

theorem isAbs_append {d : Path} (r : Path) (h : Path.isAbs d = true) :
    Path.isAbs (d ++ r) = true := by
  cases d with
  | nil => simp [Path.isAbs] at h
  | cons x xs => simpa [Path.isAbs] using h

/-! ### Filesystem lemmas -/

theorem statList_append_some {l : List (Path × FType)} {p : Path} {e : FType}
    (m : List (Path × FType)) (h : statList l p = some e) :
    statList (l ++ m) p = some e := by
  induction l with
  | nil => simp [statList] at h
  | cons q rest ih =>
    obtain ⟨qp, qe⟩ := q
    by_cases hq : qp = p
    · simp only [statList, if_pos hq] at h
      simp only [List.cons_append, statList, if_pos hq]
      exact h
    · simp only [statList, if_neg hq] at h
      simp only [List.cons_append, statList, if_neg hq]
      exact ih h

theorem statList_append_none {l : List (Path × FType)} {p : Path}
    (m : List (Path × FType)) (h : statList l p = none) :
    statList (l ++ m) p = statList m p := by
  induction l with
  | nil => simp [statList]
  | cons q rest ih =>
    obtain ⟨qp, qe⟩ := q
    by_cases hq : qp = p
    · simp [statList, if_pos hq] at h
    · simp only [statList, if_neg hq] at h
      simp only [List.cons_append, statList, if_neg hq]
      exact ih h

theorem stat_add_some {fs : FS} {p : Path} {e : FType} (q : Path) (x : FType)
    (h : fs.stat p = some e) : (fs.add q x).stat p = some e :=
  statList_append_some _ h

theorem stat_add_new {fs : FS} {p q : Path} {x e : FType}
    (hn : fs.stat p = none) (h : (fs.add q x).stat p = some e) :
    q = p ∧ x = e := by
  unfold FS.add FS.stat at h
  rw [statList_append_none _ hn] at h
  simp only [statList] at h
  by_cases hq : q = p
  · simp [hq] at h
    exact ⟨hq, h⟩
  · simp [statList, hq] at h

theorem stat_add_of_ne {fs : FS} {p q : Path} (x : FType) (hq : q ≠ p) :
    (fs.add q x).stat p = fs.stat p := by
  unfold FS.add FS.stat
  cases he : statList fs.entries p with
  | some e => exact statList_append_some _ he
  | none =>
    rw [statList_append_none _ he]
    simp [statList, hq]

theorem stat_add_self {fs : FS} {q : Path} (x : FType)
    (hn : fs.stat q = none) : (fs.add q x).stat q = some x := by
  unfold FS.add FS.stat
  rw [statList_append_none _ hn]
  simp [statList]

theorem under_add {fs : FS} {t q : Path} (x : FType)
    (hq : (isPre t q && !(q == t)) = false) :
    (fs.add q x).under t = fs.under t := by
  unfold FS.add FS.under
  rw [List.filter_append]
  simp [hq]

/-! ### create_dir_all lemmas -/

theorem mkDirList_stat_some {fs2 : FS} {p : Path} {e : FType} :
    ∀ {cs : List String} {fs : FS} {done : Path},
      mkDirList fs done cs = some fs2 → fs.stat p = some e →
      fs2.stat p = some e := by
  intro cs
  induction cs with
  | nil =>
    intro fs done hm h
    simp only [mkDirList, Option.some.injEq] at hm
    rw [← hm]
    exact h
  | cons c rest ih =>
    intro fs done hm h
    simp only [mkDirList] at hm
    split at hm
    · exact ih hm h
    · split at hm
      · exact absurd hm (by simp)
      · exact ih hm (stat_add_some _ _ h)

theorem mkDirList_stat_new {fs2 : FS} {p : Path} {e : FType} :
    ∀ {cs : List String} {fs : FS} {done : Path},
      mkDirList fs done cs = some fs2 → fs.stat p = none →
      fs2.stat p = some e → e = FType.dir ∧ isPre p (done ++ cs) = true := by
  intro cs
  induction cs with
  | nil =>
    intro fs done hm hn h
    simp only [mkDirList, Option.some.injEq] at hm
    rw [← hm, hn] at h
    exact absurd h (by simp)
  | cons c rest ih =>
    intro fs done hm hn h
    simp only [mkDirList] at hm
    split at hm
    · have hres := ih hm hn h
      rwa [List.append_assoc, List.singleton_append] at hres
    · split at hm
      · exact absurd hm (by simp)
      · by_cases hp : done ++ [c] = p
        · have hadd : (fs.add (done ++ [c]) FType.dir).stat p = some FType.dir := by
            rw [hp]
            exact stat_add_self _ (hp ▸ hn)
          have h2 := mkDirList_stat_some hm hadd
          rw [h2, Option.some.injEq] at h
          refine ⟨h.symm, ?_⟩
          have hco : done ++ c :: rest = (done ++ [c]) ++ rest := by simp
          rw [← hp, hco]
          exact isPre_append _ _
        · have hn2 : (fs.add (done ++ [c]) FType.dir).stat p = none := by
            rw [stat_add_of_ne _ hp]
            exact hn
          have hres := ih hm hn2 h
          rwa [List.append_assoc, List.singleton_append] at hres

theorem mkDirList_under {fs2 : FS} :
    ∀ {cs : List String} {fs : FS} {done : Path},
      mkDirList fs done cs = some fs2 →
      fs2.under (done ++ cs) = fs.under (done ++ cs) := by
  intro cs
  induction cs with
  | nil =>
    intro fs done hm
    simp only [mkDirList, Option.some.injEq] at hm
    rw [hm]
  | cons c rest ih =>
    intro fs done hm
    simp only [mkDirList] at hm
    split at hm
    · have hres := ih hm
      rwa [List.append_assoc, List.singleton_append] at hres
    · split at hm
      · exact absurd hm (by simp)
      · have hres := ih hm
        rw [List.append_assoc, List.singleton_append] at hres
        rw [hres]
        apply under_add
        rw [Bool.and_eq_false_iff]
        by_cases hpre : isPre (done ++ c :: rest) (done ++ [c]) = true
        · right
          have hco : isPre (done ++ [c]) (done ++ c :: rest) = true := by
            have hr : done ++ c :: rest = (done ++ [c]) ++ rest := by simp
            rw [hr]
            exact isPre_append _ _
          rw [isPre_antisymm hco hpre]
          simp
        · left
          simpa using hpre

theorem mkDirAll_stat_some {fs fs2 : FS} {t p : Path} {e : FType}
    (hm : fs.mkDirAll t = some fs2) (h : fs.stat p = some e) :
    fs2.stat p = some e :=
  mkDirList_stat_some hm h

theorem mkDirAll_stat_new {fs fs2 : FS} {t p : Path} {e : FType}
    (hm : fs.mkDirAll t = some fs2) (hn : fs.stat p = none)
    (h : fs2.stat p = some e) : e = FType.dir ∧ isPre p t = true := by
  have hres := mkDirList_stat_new hm hn h
  rwa [List.nil_append] at hres

theorem mkDirAll_under {fs fs2 : FS} {t : Path}
    (hm : fs.mkDirAll t = some fs2) : fs2.under t = fs.under t := by
  have hres := mkDirList_under hm
  rwa [List.nil_append] at hres

/-! ### soft_link and deployment-loop lemmas -/

theorem softLink_some {fs fs2 : FS} {src dst : Path}
    (h : fs.softLink src dst = some fs2) :
    fs2 = fs.add dst (FType.symlink src) ∧ fs.stat dst = none := by
  unfold FS.softLink at h
  split at h
  · exact absurd h (by simp)
  · next hocc =>
    split at h
    · exact absurd h (by simp)
    · split at h
      · refine ⟨(Option.some.inj h).symm, ?_⟩
        exact Option.not_isSome_iff_eq_none.1 hocc
      · exact absurd h (by simp)

theorem deployLoop_events (a : Args) (tgt : Path) :
    ∀ (srcs : List Path) (fs : FS) (evs : List Event),
      ∃ tl, (deployLoop a tgt srcs fs evs).events = evs ++ tl := by
  intro srcs
  induction srcs with
  | nil => intro fs evs; exact ⟨[], by simp [deployLoop]⟩
  | cons src rest ih =>
    intro fs evs
    simp only [deployLoop]
    split
    · split
      · obtain ⟨tl, htl⟩ := ih fs (evs ++ [Event.warned src])
        exact ⟨Event.warned src :: tl, by rw [htl]; simp⟩
      · split
        · exact ⟨[], by simp⟩
        · next relOut heq =>
          split
          · obtain ⟨tl, htl⟩ := ih fs (evs ++ [Event.planned src (tgt ++ relOut)])
            exact ⟨Event.planned src (tgt ++ relOut) :: tl, by rw [htl]; simp⟩
          · split
            · next fs2 hsl =>
              obtain ⟨tl, htl⟩ := ih fs2 (evs ++ [Event.planned src (tgt ++ relOut)])
              exact ⟨Event.planned src (tgt ++ relOut) :: tl, by rw [htl]; simp⟩
            · exact ⟨[Event.planned src (tgt ++ relOut)], by simp⟩
    · exact ih fs evs

theorem deployLoop_dry_fs (a : Args) (tgt : Path) (hdry : a.dryRun = true) :
    ∀ (srcs : List Path) (fs : FS) (evs : List Event),
      (deployLoop a tgt srcs fs evs).fs = fs := by
  intro srcs
  induction srcs with
  | nil => intro fs evs; simp [deployLoop]
  | cons src rest ih =>
    intro fs evs
    simp only [deployLoop]
    split
    · split
      · exact ih fs _
      · split
        · rfl
        · exact ih fs _
    · exact ih fs evs

theorem deployLoop_stat_some (a : Args) (tgt : Path) {p : Path} {e : FType} :
    ∀ (srcs : List Path) (fs : FS) (evs : List Event),
      fs.stat p = some e → (deployLoop a tgt srcs fs evs).fs.stat p = some e := by
  intro srcs
  induction srcs with
  | nil => intro fs evs h; simpa [deployLoop] using h
  | cons src rest ih =>
    intro fs evs h
    simp only [deployLoop]
    split
    · split
      · exact ih fs _ h
      · split
        · exact h
        · split
          · exact ih fs _ h
          · split
            · next fs2 hsl =>
              obtain ⟨heq2, hmiss⟩ := softLink_some hsl
              exact ih fs2 _ (heq2 ▸ stat_add_some _ _ h)
            · exact h
    · exact ih fs evs h

theorem deployLoop_stat_new (a : Args) (tgt : Path) {p : Path} {e : FType} :
    ∀ (srcs : List Path) (fs : FS) (evs : List Event),
      (deployLoop a tgt srcs fs evs).fs.stat p = some e →
      fs.stat p = some e ∨
        ∃ s rel, e = FType.symlink s ∧ dropPre a.dir s = some rel := by
  intro srcs
  induction srcs with
  | nil => intro fs evs h; exact Or.inl (by simpa [deployLoop] using h)
  | cons src rest ih =>
    intro fs evs h
    simp only [deployLoop] at h
    split at h
    · split at h
      · exact ih fs _ h
      · next rel hrel =>
        split at h
        · exact Or.inl h
        · split at h
          · exact ih fs _ h
          · split at h
            · next fs2 hsl =>
              obtain ⟨hfs2, hmiss⟩ := softLink_some hsl
              rcases ih fs2 _ h with h2 | h2
              · rw [hfs2] at h2
                cases hfp : fs.stat p with
                | some e2 =>
                  rw [stat_add_some _ _ hfp] at h2
                  exact Or.inl h2
                | none =>
                  obtain ⟨hq, hx⟩ := stat_add_new hfp h2
                  exact Or.inr ⟨src, rel, hx.symm, hrel⟩
              · exact Or.inr h2
            · exact Or.inl h
    · exact ih fs evs h

theorem walk_isPre {fs : FS} {p src : Path} (h : src ∈ fs.walk p) :
    isPre p src = true := by
  unfold FS.walk at h
  simp only [List.mem_map, List.mem_filter] at h
  obtain ⟨q, ⟨hq, hpre⟩, rfl⟩ := h
  exact hpre

theorem deployLoop_reports (a : Args) (tgt src : Path) :
    ∀ (srcs : List Path) (fs : FS) (evs : List Event),
      (∀ x ∈ srcs, isPre (a.dir ++ [a.package]) x = true) →
      src ∈ srcs → fs.isDeployable src = true →
      evs.length < (deployLoop a tgt srcs fs evs).events.length := by
  intro srcs
  induction srcs with
  | nil => intro fs evs hall hmem hdep; simp at hmem
  | cons head rest ih =>
    intro fs evs hall hmem hdep
    by_cases hd : fs.isDeployable head = true
    · have hpre := hall head (List.mem_cons_self head rest)
      obtain ⟨c, hc⟩ := (isPre_iff _ _).1 hpre
      have h1 : dropPre a.dir head = some ([a.package] ++ c) := by
        rw [hc, List.append_assoc]
        exact dropPre_append _ _
      have h2 : dropPre [a.package] ([a.package] ++ c) = some c :=
        dropPre_append _ _
      simp only [deployLoop, hd, if_true, h1, h2]
      split
      · obtain ⟨tl, htl⟩ := deployLoop_events a tgt rest fs
          (evs ++ [Event.planned head (tgt ++ c)])
        rw [htl]
        simp
      · split
        · next fs2 hsl =>
          obtain ⟨tl, htl⟩ := deployLoop_events a tgt rest fs2
            (evs ++ [Event.planned head (tgt ++ c)])
          rw [htl]
          simp
        · simp
    · have hne : src ≠ head := fun hsrc => hd (hsrc ▸ hdep)
      have hmem2 : src ∈ rest := by
        rcases List.mem_cons.1 hmem with hsrc | hsrc
        · exact absurd hsrc hne
        · exact hsrc
      simp only [deployLoop, hd]
      rw [if_neg (by simp [hd])]
      exact ih fs evs (fun x hx => hall x (List.mem_cons_of_mem _ hx)) hmem2 hdep

/-! ### exec-level invariants -/

theorem exec_stat_some (a : Args) (fs : FS) {p : Path} {e : FType}
    (h : fs.stat p = some e) : (exec a fs).fs.stat p = some e := by
  simp only [exec]
  split
  · exact h
  · split
    · exact h
    · split
      · exact h
      · next fs1 hmk =>
        exact deployLoop_stat_some a _ _ fs1 [] (mkDirAll_stat_some hmk h)

theorem exec_stat_cases (a : Args) (fs : FS) {p : Path} {e : FType}
    (h : (exec a fs).fs.stat p = some e) :
    fs.stat p = some e ∨
      (e = FType.dir ∧ ∃ t, resolveTarget a = some t ∧ isPre p t = true) ∨
      ∃ s rel, e = FType.symlink s ∧ dropPre a.dir s = some rel := by
  simp only [exec] at h
  split at h
  · exact Or.inl h
  · next tgt hrt =>
    split at h
    · exact Or.inl h
    · split at h
      · exact Or.inl h
      · next fs1 hmk =>
        rcases deployLoop_stat_new a tgt _ fs1 [] h with h2 | h2
        · cases hfp : fs.stat p with
          | some e2 =>
            have hps := mkDirAll_stat_some hmk hfp
            rw [hps] at h2
            exact Or.inl h2
          | none =>
            obtain ⟨hdir, hp⟩ := mkDirAll_stat_new hmk hfp h2
            exact Or.inr (Or.inl ⟨hdir, tgt, hrt, hp⟩)
        · exact Or.inr (Or.inr h2)

/-! ### The claims -/

/-- C1: for every package, target directory and conflict policy, a run
with dry_run = true performs no mutation of the target directory — the
entries (names and types) under the resolved target are identical before
and after the run — while the run still reports a non-empty event stream
whenever a deployable walked entry exists. -/
theorem dryRun_no_mutation (a : Args) (fs : FS) (hdry : a.dryRun = true) :
    (∀ t, resolveTarget a = some t →
      FS.under (exec a fs).fs t = FS.under fs t) ∧
    (∀ t fs1 src, resolveTarget a = some t →
      (fs.stat (a.dir ++ [a.package])).isSome = true →
      fs.mkDirAll t = some fs1 →
      src ∈ fs1.walk (a.dir ++ [a.package]) →
      fs1.isDeployable src = true →
      (exec a fs).events ≠ []) := by
  constructor
  · intro t ht
    simp only [exec, ht]
    by_cases hpkg : (fs.stat (a.dir ++ [a.package])).isNone = true
    · simp [hpkg]
    · simp only [hpkg, if_neg, Bool.false_eq_true, ite_false]
      cases hmk : fs.mkDirAll t with
      | none => simp
      | some fs1 =>
        rw [deployLoop_dry_fs a t hdry]
        exact mkDirAll_under hmk
  · intro t fs1 src ht hpkg hmk hmem hdep
    have hn : ¬ ((fs.stat (a.dir ++ [a.package])).isNone = true) := by
      rw [Option.isNone_iff_eq_none]
      intro hc
      rw [hc] at hpkg
      exact absurd hpkg (by simp)
    simp only [exec, ht, hn, if_neg, Bool.false_eq_true, ite_false, hmk]
    have hrep := deployLoop_reports a t src (fs1.walk (a.dir ++ [a.package]))
      fs1 [] (fun x hx => walk_isPre hx) hmem hdep
    intro hempty
    rw [hempty] at hrep
    exact absurd hrep (by simp)

/-- C1 witness: a concrete dry run over a package with one deployable
file and no pre-existing target leaves the entries under the resolved
target untouched and reports a non-empty event stream. -/
theorem dryRun_no_mutation_witness :
    FS.under (exec argsDry fsHome).fs [] = FS.under fsHome [] ∧
    (exec argsDry fsHome).events ≠ [] := by
  have h := dryRun_no_mutation argsDry fsHome rfl
  exact ⟨h.1 [] (by decide),
    h.2 [] fsHome ["r", "home", ".vimrc"] (by decide) (by decide) (by decide)
      (by decide) (by decide)⟩

/-- C2: under policy Stop, when the planned destination of a deployable
entry is already occupied by a file or a symlink, the run aborts at that
entry: the remaining entries are not processed, the filesystem is left
exactly as it stood when the conflict was hit (so every link created
earlier in the run stays in place), and only the planned-link report for
the conflicting entry is added. -/
theorem stop_conflict_aborts (a : Args) (tgt src : Path) (rest : List Path)
    (fs : FS) (evs : List Event) (rel relOut : Path) (e : FType)
    (hpol : a.existsPolicy = ConflictResolution.stop)
    (hdry : a.dryRun = false)
    (hdep : fs.isDeployable src = true)
    (h1 : dropPre a.dir src = some rel)
    (h2 : dropPre [a.package] rel = some relOut)
    (hocc : fs.stat (tgt ++ relOut) = some e)
    (hkind : e.isFileOrLink = true) :
    deployLoop a tgt (src :: rest) fs evs =
      ⟨fs, evs ++ [Event.planned src (tgt ++ relOut)], RunStatus.fatal⟩ := by
  have hsl : fs.softLink src (tgt ++ relOut) = none := by
    unfold FS.softLink
    rw [hocc]
    simp
  simp [deployLoop, hdep, h1, h2, hdry, hsl]

/-- C2 witness: a concrete Stop run (from an arbitrary mid-run state,
here the initial one) hits the occupied destination t/.vimrc, reports it,
and aborts with the filesystem unchanged and the tail unprocessed. -/
theorem stop_conflict_aborts_witness :
    deployLoop argsStop ["t"] [["r", "home", ".vimrc"]] fsConflict [] =
      ⟨fsConflict, [Event.planned ["r", "home", ".vimrc"] ["t", ".vimrc"]],
        RunStatus.fatal⟩ :=
  stop_conflict_aborts argsStop ["t"] ["r", "home", ".vimrc"] [] fsConflict []
    ["home", ".vimrc"] [".vimrc"] (FType.file "old") (by decide) (by decide)
    (by decide) (by decide) (by decide) (by decide) (by decide)

/-- C3: evidence against the claim that policy Overwrite removes an
occupied destination and links over it. At a run whose policy is
Overwrite and whose single destination t/.vimrc is occupied by a regular
file, the program aborts with the filesystem unchanged: the occupant is
not removed, no link is created, and the run does not continue. -/
theorem overwrite_conflict_aborts_instead :
    argsOver.existsPolicy = ConflictResolution.overwrite ∧
    (exec argsOver fsConflict).status = RunStatus.fatal ∧
    (exec argsOver fsConflict).fs = fsConflict := by decide

/-- C4: evidence against the claim that policy Rollback removes the links
of the current session and leaves the symlink set unchanged. In a
Rollback run that deploys t/a and then hits the occupied destination t/b,
the run aborts with the earlier link t/a still present — a destination
that is a symlink after the run but was not one before. -/
theorem rollback_not_performed :
    argsRoll.existsPolicy = ConflictResolution.rollback ∧
    (exec argsRoll fsRoll).status = RunStatus.fatal ∧
    (exec argsRoll fsRoll).fs.stat ["t", "a"] =
      some (FType.symlink ["r", "home", "a"]) ∧
    fsRoll.stat ["t", "a"] = none ∧
    (exec argsRoll fsRoll).fs.stat ["t", "b"] = some (FType.file "old") := by
  decide

/-- C5: evidence against the claim that a run invoked with a package name
to delete removes exactly the package-relative destinations that are
symlinks. With delete = "home" and the package-relative destination
t/.vimrc being a symlink, the run removes nothing — the symlink survives —
and instead attempts deployment, aborting on the resulting conflict. -/
theorem delete_removes_nothing :
    argsDel.delete = "home" ∧
    (exec argsDel fsDel).fs.stat ["t", ".vimrc"] =
      some (FType.symlink ["r", "home", ".vimrc"]) ∧
    (exec argsDel fsDel).status = RunStatus.fatal ∧
    (exec argsDel fsDel).fs = fsDel := by decide

/-- C6: evidence against the claim that intermediate destination
directories are created before the first link under them. Deploying a
package with the nested entry home/cfg/app.conf into an existing target t
aborts: t/cfg is never created and no link appears beneath it. -/
theorem nested_dirs_not_created :
    (exec argsStop fsNest).status = RunStatus.fatal ∧
    (exec argsStop fsNest).fs.stat ["t", "cfg"] = none ∧
    (exec argsStop fsNest).fs.stat ["t", "cfg", "app.conf"] = none := by decide

/-- C7 counterexample: with the package root supplied as the relative
path pkgs, the run creates the link t/.vimrc pointing at the relative
path pkgs/home/.vimrc — not an absolute path — refuting the claim that
every created symlink points at the absolute path of its source. -/
theorem relative_dir_relative_link :
    (exec argsRel fsRel).fs.stat ["t", ".vimrc"] =
      some (FType.symlink ["pkgs", "home", ".vimrc"]) ∧
    fsRel.stat ["t", ".vimrc"] = none ∧
    Path.isAbs ["pkgs", "home", ".vimrc"] = false := by decide

/-- C7 amended: every symlink the engine creates points at the walked
source path, which begins with the supplied package root dir; hence
whenever dir is an absolute path (as with the default, resolved from
RANCH_DIR or the current directory), every created link target is
absolute. -/
theorem links_point_at_source_path (a : Args) (fs : FS) (p t : Path)
    (habs : Path.isAbs a.dir = true)
    (h : (exec a fs).fs.stat p = some (FType.symlink t)) :
    fs.stat p = some (FType.symlink t) ∨ Path.isAbs t = true := by
  rcases exec_stat_cases a fs h with h2 | h2 | h2
  · exact Or.inl h2
  · exact absurd h2.1 (by simp)
  · obtain ⟨s, rel, hs, hdrop⟩ := h2
    have hts : t = s := by
      injection hs
    refine Or.inr ?_
    rw [hts, dropPre_eq hdrop]
    exact isAbs_append _ habs

/-- C7 amended witness: a concrete run rooted at the absolute path /r
creates /t/.vimrc, whose target is absolute. -/
theorem links_point_at_source_path_witness :
    fsAbs.stat ["/", "t", ".vimrc"] =
        some (FType.symlink ["/", "r", "home", ".vimrc"]) ∨
      Path.isAbs ["/", "r", "home", ".vimrc"] = true :=
  links_point_at_source_path argsAbs fsAbs ["/", "t", ".vimrc"]
    ["/", "r", "home", ".vimrc"] (by decide) (by decide)

/-- C8: evidence against the claim that a second Overwrite run on the
same package and target completes as a sequence of no-ops. The first run
succeeds and creates the link; the second run aborts at its first entry
(the destination is now occupied by that link) instead of completing. -/
theorem second_overwrite_run_fails :
    (exec argsOver fsTgt).status = RunStatus.ok ∧
    (exec argsOver (exec argsOver fsTgt).fs).status = RunStatus.fatal ∧
    (exec argsOver (exec argsOver fsTgt).fs).fs = (exec argsOver fsTgt).fs := by
  decide

/-- C9: a walked deployable entry whose path cannot be stripped of the
dir prefix produces a warning event, is skipped, and the loop continues
with the remaining entries on an unchanged filesystem — a warning, not a
fatal error. -/
theorem strip_failure_warns_and_continues (a : Args) (tgt src : Path)
    (rest : List Path) (fs : FS) (evs : List Event)
    (hdep : fs.isDeployable src = true)
    (hfail : dropPre a.dir src = none) :
    deployLoop a tgt (src :: rest) fs evs =
      deployLoop a tgt rest fs (evs ++ [Event.warned src]) := by
  simp [deployLoop, hdep, hfail]

/-- C9 witness: the loose file x is deployable but not a child of the
root r; the loop records the warning and proceeds, here to a normal
finish. -/
theorem strip_failure_warns_and_continues_witness :
    deployLoop argsStop ["t"] [["x"]] fsLoose [] =
      deployLoop argsStop ["t"] [] fsLoose [Event.warned ["x"]] :=
  strip_failure_warns_and_continues argsStop ["t"] ["x"] [] fsLoose []
    (by decide) (by decide)

/-- C10: for every configuration — every policy and any delete option —
the program never removes or rewrites an existing filesystem entry
(every pre-run entry is still present with identical type and content),
and every entry it creates is either a directory on the resolved target
path (the target and its ancestors) or a symlink at a previously missing
path. -/
theorem mutations_only_additive (a : Args) (fs : FS) :
    (∀ p e, fs.stat p = some e → (exec a fs).fs.stat p = some e) ∧
    (∀ p e, fs.stat p = none → (exec a fs).fs.stat p = some e →
      (e = FType.dir ∧ ∃ t, resolveTarget a = some t ∧ isPre p t = true) ∨
      ∃ s, e = FType.symlink s) := by
  refine ⟨fun p e h => exec_stat_some a fs h, fun p e hn h => ?_⟩
  rcases exec_stat_cases a fs h with h2 | h2 | h2
  · rw [hn] at h2
    exact absurd h2 (by simp)
  · exact Or.inl h2
  · obtain ⟨s, rel, hs, hdrop⟩ := h2
    exact Or.inr ⟨s, hs⟩

/-- C10 witness: in the concrete Stop run over an occupied destination,
the pre-existing file survives with its content; in the concrete
Overwrite run into an empty target, the one new entry is a symlink. -/
theorem mutations_only_additive_witness :
    (exec argsStop fsConflict).fs.stat ["t", ".vimrc"] =
        some (FType.file "old") ∧
    ((FType.symlink ["r", "home", ".vimrc"] = FType.dir ∧
        ∃ t, resolveTarget argsOver = some t ∧
          isPre ["t", ".vimrc"] t = true) ∨
      ∃ s, FType.symlink ["r", "home", ".vimrc"] = FType.symlink s) := by
  constructor
  · exact (mutations_only_additive argsStop fsConflict).1 ["t", ".vimrc"]
      (FType.file "old") (by decide)
  · exact (mutations_only_additive argsOver fsTgt).2 ["t", ".vimrc"]
      (FType.symlink ["r", "home", ".vimrc"]) (by decide) (by decide)

end Ranch
